import Mathlib

/-!
Shallow embedding of the compgrapher repository's data-parsing layer.

Cells and strings are modelled as `List Char` (`Str`); Python floats parsed
from decimal text are modelled exactly as scaled decimals (`Dec`, meaning
`num / 10 ^ scale`); Python dicts are modelled as insertion-ordered
association lists with overwrite-on-rebind (`dictSet`); exceptions
(`IndexError` from `row[col_idx]`) are modelled with `Except`.
-/

namespace Compgrapher

/-- A Python string, as a list of characters. -/
abbrev Str := List Char

/-- One CSV row, as produced by `csv.reader`. -/
abbrev Row := List Str

/-- The ASCII whitespace characters removed by Python's `str.strip()`
(the model omits non-ASCII Unicode whitespace). -/
def wsChar (c : Char) : Bool :=
  c = ' ' || c = '\t' || c = '\n' || c = '\r' || c = '\x0b' || c = '\x0c'

/-- Python `str.strip()`: remove leading and trailing whitespace. -/
def pyStrip (s : Str) : Str :=
  ((s.dropWhile wsChar).reverse.dropWhile wsChar).reverse

/-- Python `str.replace(c, '')`: remove every occurrence of the character. -/
def removeChar (c : Char) (s : Str) : Str :=
  s.filter (fun d => d ≠ c)

/-- Python `str.lower()` on ASCII letters. -/
def pyLower (c : Char) : Char :=
  if 'A' ≤ c ∧ c ≤ 'Z' then Char.ofNat (c.toNat + 32) else c

/-- `str.lower()` over a whole string. -/
def lowerStr (s : Str) : Str := s.map pyLower

/-- Python's substring test `pat in s`. -/
def containsSub (pat : Str) : Str → Bool
  | [] => pat.isEmpty
  | c :: rest => pat.isPrefixOf (c :: rest) || containsSub pat rest

/-- Numeric value of a string of decimal digit characters. -/
def digitsVal (ds : Str) : Nat :=
  ds.foldl (fun a c => 10 * a + (c.toNat - 48)) 0

/-- An exact scaled decimal, the model of a Python float parsed from decimal
text: the value is `num / 10 ^ scale`.  (Python floats produced by parsing
the salary cells are modelled exactly; binary rounding is not modelled.) -/
structure Dec where
  num : Int
  scale : Nat
deriving DecidableEq, Repr

/-- The rational value of a scaled decimal. -/
def Dec.toRat (d : Dec) : ℚ := (d.num : ℚ) / 10 ^ d.scale

/-- Semantic comparison `a < b` of scaled decimals (cross-multiplied). -/
def Dec.lt (a b : Dec) : Bool :=
  a.num * 10 ^ b.scale < b.num * 10 ^ a.scale

/-- Semantic comparison `a ≤ b` of scaled decimals (cross-multiplied). -/
def Dec.le (a b : Dec) : Bool :=
  a.num * 10 ^ b.scale ≤ b.num * 10 ^ a.scale

/-- Exponent suffix of a Python float literal: `[]`, or `e`/`E`, an optional
sign and a nonempty digit string.  Given the unsigned mantissa `mant` with
`k` fractional digits, returns the adjusted `(numerator, scale)`. -/
def expAdjust (mant k : Nat) : Str → Option (Nat × Nat)
  | [] => some (mant, k)
  | 'e' :: r => expTail mant k r
  | 'E' :: r => expTail mant k r
  | _ => none
where
  /-- Parse the optionally signed digit string after `e`/`E`. -/
  expTail (mant k : Nat) : Str → Option (Nat × Nat)
    | '+' :: r2 => expDigits mant k false r2
    | '-' :: r2 => expDigits mant k true r2
    | r2 => expDigits mant k false r2
  /-- Apply a nonempty all-digit exponent; anything else fails. -/
  expDigits (mant k : Nat) (neg : Bool) (r : Str) : Option (Nat × Nat) :=
    if r ≠ [] ∧ r.all Char.isDigit then
      let e := digitsVal r
      if neg then some (mant, k + e) else some (mant * 10 ^ e, k)
    else none

/-- The unsigned body of a Python float literal:
`digits [. digits] [exponent]` with at least one digit around the point.
Returns `(numerator, scale)` on success. -/
def pyFloatCore (s : Str) : Option (Nat × Nat) :=
  let d1 := s.takeWhile Char.isDigit
  let r1 := s.dropWhile Char.isDigit
  match r1 with
  | '.' :: r2 =>
    let d2 := r2.takeWhile Char.isDigit
    let r3 := r2.dropWhile Char.isDigit
    if d1.isEmpty && d2.isEmpty then none
    else expAdjust (digitsVal d1 * 10 ^ d2.length + digitsVal d2) d2.length r3
  | _ => if d1.isEmpty then none else expAdjust (digitsVal d1) 0 r1

/-- Model of Python's `float(s)` on the decimal-literal fragment: optional
surrounding whitespace, optional sign, digits with an optional fractional
part and an optional exponent.  (`inf`/`nan` spellings and `_` digit
separators, which `float` also accepts, are outside the modelled fragment;
no salary cell uses them.)  Failure models the `ValueError`. -/
def pyFloat (s : Str) : Option Dec :=
  pyFloatSigned (pyStrip s)
where
  /-- Sign handling of the stripped literal. -/
  pyFloatSigned : Str → Option Dec
    | [] => none
    | c :: r =>
      if c = '+' then (pyFloatCore r).map (fun p => ⟨(p.1 : Int), p.2⟩)
      else if c = '-' then (pyFloatCore r).map (fun p => ⟨-(p.1 : Int), p.2⟩)
      else (pyFloatCore (c :: r)).map (fun p => ⟨(p.1 : Int), p.2⟩)

/-- The match of the regex `\d+\.?\d*` anchored at `s`, which must start
with a digit: greedy digits, an optional point, greedy digits. -/
def numToken (s : Str) : Str :=
  let d1 := s.takeWhile Char.isDigit
  let r1 := s.dropWhile Char.isDigit
  match r1 with
  | '.' :: r2 => d1 ++ '.' :: r2.takeWhile Char.isDigit
  | _ => d1

/-- `re.search(r'(\d+\.?\d*)', s)`: the leftmost match starts at the first
digit of `s`; `none` when `s` has no digit. -/
def findNum : Str → Option Str
  | [] => none
  | c :: r => if c.isDigit then some (numToken (c :: r)) else findNum r

/-- The lowercase word `per` looked for by the unit-qualifier branch. -/
def perStr : Str := "per".data

/-- The `clean_val` local of `clean_salary_value`:
`value.strip().replace('$', '').replace(',', '')`. -/
def cleanedOf (value : Str) : Str :=
  removeChar ',' (removeChar '$' (pyStrip value))

/-- `clean_salary_value` from the three visualization scripts (they contain
three identical copies): blank input gives `None`; otherwise `$` and `,`
are removed, a string containing `per` goes through regex extraction of the
first numeric token, and anything else through `float` coercion with the
`ValueError` recovered as `None`. -/
def clean_salary_value (value : Str) : Option Dec :=
  if pyStrip value = [] then none
  else
    let clean_val := cleanedOf value
    if containsSub perStr (lowerStr clean_val) then
      match findNum clean_val with
      | some tok => pyFloat tok
      | none => none
    else pyFloat clean_val

/-- Formalisation of the spec's "currency-formatted number": after the
dollar signs and thousands separators are removed, the text is a plain
unsigned decimal numeral — a nonempty digit run optionally followed by a
point and further digits. -/
def isPlainDecimal (t : Str) : Bool :=
  let d1 := t.takeWhile Char.isDigit
  let r1 := t.dropWhile Char.isDigit
  !d1.isEmpty &&
    (r1.isEmpty || (r1.head? == some '.' && r1.tail.all Char.isDigit))

/-- The "underlying number" of a plain decimal numeral, read off directly
from its digits: integer part joined with the fractional digits. -/
def decOf (t : Str) : Dec :=
  let d1 := t.takeWhile Char.isDigit
  let r1 := t.dropWhile Char.isDigit
  match r1 with
  | '.' :: r2 => ⟨digitsVal d1 * 10 ^ r2.length + digitsVal r2, r2.length⟩
  | _ => ⟨digitsVal d1, 0⟩

instance {ε α : Type} [DecidableEq ε] [DecidableEq α] :
    DecidableEq (Except ε α) := fun x y =>
  match x, y with
  | .ok a, .ok b =>
    match decEq a b with
    | isTrue h => isTrue (h ▸ rfl)
    | isFalse h => isFalse (fun e => h (Except.ok.inj e))
  | .error a, .error b =>
    match decEq a b with
    | isTrue h => isTrue (h ▸ rfl)
    | isFalse h => isFalse (fun e => h (Except.error.inj e))
  | .ok _, .error _ => isFalse (fun e => Except.noConfusion e)
  | .error _, .ok _ => isFalse (fun e => Except.noConfusion e)

/-- A Python dict, modelled as an insertion-ordered association list. -/
abbrev Dict (α : Type) := List (Str × α)

/-- `d[k] = v`: rebinding an existing key keeps its position, a new key is
appended at the end, as Python dicts do. -/
def dictSet {α : Type} (d : Dict α) (k : Str) (v : α) : Dict α :=
  match d with
  | [] => [(k, v)]
  | e :: rest => if e.1 = k then (k, v) :: rest else e :: dictSet rest k v

/-- `d.get(k)`: the value bound to `k`, if any. -/
def dictGet? {α : Type} (d : Dict α) (k : Str) : Option α :=
  match d with
  | [] => none
  | e :: rest => if e.1 = k then some e.2 else dictGet? rest k

/-- Employer-columns map of one position: employer name to parsed value. -/
abbrev EmpMap := Dict Dec

/-- The `position_data` output of `load_comparison_data`. -/
abbrev Dataset := Dict EmpMap

/-- Python `row[i]`, which raises `IndexError` when `i` is out of range. -/
def pyIndex (row : Row) (i : Nat) : Except Unit Str :=
  if h : i < row.length then .ok (row.get ⟨i, h⟩) else .error ()

/-- `headers[1:-3] if len(headers) > 3 else headers[1:]` from
`load_comparison_data`: all columns except the first and, when the table
has more than three columns, the trailing three. -/
def employerHeaders (headers : Row) : List Str :=
  if headers.length > 3 then (headers.drop 1).take (headers.length - 4)
  else headers.drop 1

/-- The `town_indices` dict of `load_comparison_data`: stripped employer
header mapped to its column index (duplicate stripped names rebind, the
later column wins, as in the source's dict assignment). -/
def townIndices (headers : Row) : Dict Nat :=
  (employerHeaders headers).enum.foldl
    (fun d p => dictSet d (pyStrip p.2) (p.1 + 1)) []

/-- The known metadata column labels named by the source comment in
`load_comparison_data` ("Skip the last few columns that are metadata (ERI,
Comp Data Points, 60th Percentile)"). -/
def metadataLabels : List Str :=
  ["ERI".data, "Comp Data Points".data, "60th Percentile".data]

/-- The three position titles skipped by `load_comparison_data` and by
`filter_data_for_visualization`. -/
def inspectorTitles : List Str :=
  ["Alternate Building Inspector".data,
   "Alternate Gas/Plumbing Inspector".data,
   "Alternate Wire Inspector".data]

/-- One employer column of `load_comparison_data`'s inner loop: read
`row[col_idx]` (an out-of-range read raises `IndexError`) and store the
parsed value only when parsing succeeded. -/
def rowStep (row : Row) (m : EmpMap) (p : Str × Nat) : Except Unit EmpMap :=
  match pyIndex row p.2 with
  | .error e => .error e
  | .ok cell =>
    match clean_salary_value cell with
    | some v => .ok (dictSet m p.1 v)
    | none => .ok m

/-- The inner loop of `load_comparison_data` over one row: for each
`(employer, col_idx)` of `town_indices` in insertion order, run
`rowStep`. -/
def rowEntries (ti : Dict Nat) (row : Row) : Except Unit EmpMap :=
  ti.foldlM (rowStep row) []

/-- One iteration of `load_comparison_data`'s row loop: rows with fewer
than two cells or a blank first cell are skipped, the three inspector
titles are skipped, and otherwise `position_data[position]` is rebuilt
from this row's cells. -/
def stepRow (ti : Dict Nat) (acc : Dataset) (row : Row) : Except Unit Dataset :=
  match row with
  | [] => .ok acc
  | c0 :: _ =>
    if row.length < 2 || pyStrip c0 = [] then .ok acc
    else
      if pyStrip c0 ∈ inspectorTitles then .ok acc
      else
        match rowEntries ti row with
        | .error e => .error e
        | .ok m => .ok (dictSet acc (pyStrip c0) m)

/-- `load_comparison_data` from `compare_to_first_employer.py`, with the
header row (consumed by `next(reader)`) passed separately from the data
rows.  The `town_colors` output is presentation data (matplotlib colors
keyed by the same employer names) and is not modelled. -/
def load_comparison_data (headers : Row) (rows : List Row) :
    Except Unit Dataset :=
  rows.foldlM (stepRow (townIndices headers)) []

/-- `load_dartmouth_data` from `visualize_dartmouth_original.py`: one
`(position, salary)` record per row whose first cell is nonblank and whose
second cell parses.  It reads only `row[0]` and `row[1]`, both guarded by
the `len(row) < 2` check, so it cannot raise. -/
def load_dartmouth_data (rows : List Row) : List (Str × Dec) :=
  rows.foldl
    (fun data row =>
      match row with
      | c0 :: c1 :: _ =>
        if pyStrip c0 = [] then data
        else
          match clean_salary_value c1 with
          | some v => data ++ [(pyStrip c0, v)]
          | none => data
      | _ => data)
    []

/-- The `employers = headers[2:18]` slice of `load_all_employer_data`. -/
def allEmployerSlice (headers : Row) : List Str :=
  (headers.drop 2).take 16

/-- One employer column of `load_all_employer_data`'s inner loop: read
`row[i + 2]` (possible `IndexError`) and append a `(position, salary)`
record to that employer's list when parsing succeeds. -/
def allEmpColStep (row : Row) (position : Str)
    (d : Dict (List (Str × Dec))) (p : Nat × Str) :
    Except Unit (Dict (List (Str × Dec))) :=
  match pyIndex row (p.1 + 2) with
  | .error e => .error e
  | .ok cell =>
    match clean_salary_value cell with
    | some v =>
      .ok (dictSet d (pyStrip p.2)
        ((dictGet? d (pyStrip p.2)).getD [] ++ [(position, v)]))
    | none => .ok d

/-- The per-row loop body of `load_all_employer_data`. -/
def allEmployerStep (employers : List Str) (acc : Dict (List (Str × Dec)))
    (row : Row) : Except Unit (Dict (List (Str × Dec))) :=
  match row with
  | [] => .ok acc
  | c0 :: _ =>
    if row.length < 2 || pyStrip c0 = [] then .ok acc
    else employers.enum.foldlM (allEmpColStep row (pyStrip c0)) acc

/-- `load_all_employer_data` from `visualize_all_employers.py`: the employer
columns are positions 2 through 17 of the header row; `data_by_employer` is
initialised with an empty list per stripped employer name and rows append
records to those lists. -/
def load_all_employer_data (headers : Row) (rows : List Row) :
    Except Unit (Dict (List (Str × Dec))) :=
  let employers := allEmployerSlice headers
  let init := employers.foldl (fun d e => dictSet d (pyStrip e) []) []
  rows.foldlM (allEmployerStep employers) init

/-- `filter_data_for_visualization` from `visualize_all_employers.py` and
`visualize_dartmouth_original.py` (two identical copies): drop the three
inspector titles, sort by salary descending (Python's stable sort with
`reverse=True`), drop the two highest-paid records when more than two
remain, and sort ascending. -/
def filter_data_for_visualization (data : List (Str × Dec)) :
    List (Str × Dec) :=
  let fd := data.filter (fun item => item.1 ∉ inspectorTitles)
  let fd := fd.mergeSort (fun a b => Dec.le b.2 a.2)
  let fd := if fd.length > 2 then fd.drop 2 else fd
  fd.mergeSort (fun a b => Dec.le a.2 b.2)

/-- The last path component: the part after the last `/`. -/
def lastComponent (p : Str) : Str :=
  (p.reverse.takeWhile (fun c => c ≠ '/')).reverse

/-- `pathlib.PurePath.suffix`: the extension of the final component,
including the dot; empty when the name has no dot, starts with its only
dot, or ends with the dot. -/
def pySuffix (p : Str) : Str :=
  let name := lastComponent p
  let afterRev := name.reverse.takeWhile (fun c => c ≠ '.')
  if name.reverse.contains '.' ∧ afterRev ≠ [] ∧
      afterRev.length + 1 < name.length
  then '.' :: afterRev.reverse else []

/-- `CompensationDataParser.SUPPORTED_FORMATS = {'.csv', '.xls', '.xlsx',
'.ods'}`. -/
def SUPPORTED_FORMATS : List Str :=
  [".csv".data, ".xls".data, ".xlsx".data, ".ods".data]

/-- The two fatal load errors of `CompensationDataParser`:
`FileNotFoundError` and the `ValueError` "Unsupported file format". -/
inductive ParserError where
  | fileNotFound
  | unsupportedFormat
deriving DecidableEq, Repr

/-- Modelled from the spec: the tests import `data_parser.
CompensationDataParser`, whose source file is not in the repository.  Per
the spec's Load step, construction "fails with `FileNotFoundError`-kind if
the path doesn't exist, `UnsupportedFormat`-kind if the extension isn't in
{csv, xls, xlsx, ods}"; the file system is abstracted as the list of
existing paths. -/
def parserInit (existingPaths : List Str) (path : Str) :
    Except ParserError Unit :=
  if path ∈ existingPaths then
    if pySuffix path ∈ SUPPORTED_FORMATS then .ok ()
    else .error .unsupportedFormat
  else .error .fileNotFound

/-- A leaf of `CompensationDataParser`'s dataset: a single compensation
value or a `(low, high)` range, as the spec's data model describes. -/
inductive CompValue where
  | single : Dec → CompValue
  | range : Dec → Dec → CompValue
deriving DecidableEq, Repr

/-- The dataset validated by `validate_data`: position title to employer
name to compensation value or range. -/
abbrev ValDataset := Dict (Dict CompValue)

/-- The phrase `Low value` required in inverted-range warnings. -/
def lowValuePhrase : Str := "Low value".data

/-- The phrase `exceeds high value` required in inverted-range warnings. -/
def exceedsPhrase : Str := "exceeds high value".data

/-- The phrase `Negative compensation` required in negative-value
warnings. -/
def negPhrase : Str := "Negative compensation".data

/-- The phrase `no compensation data` required in empty-position
warnings. -/
def noDataPhrase : Str := "no compensation data".data

/-- The warning for a position with no employer data. -/
def noDataWarning (pos : Str) : Str :=
  "Position '".data ++ (pos ++ ("': ".data ++ (noDataPhrase ++ "".data)))

/-- The warning for a negative compensation value. -/
def negWarning (pos emp : Str) : Str :=
  negPhrase ++
    (" for position '".data ++ (pos ++ ("', employer '".data ++
      (emp ++ "'".data))))

/-- The warning for a range whose low bound exceeds its high bound. -/
def lowHighWarning (pos emp : Str) : Str :=
  lowValuePhrase ++
    (" ".data ++ (exceedsPhrase ++ (" for position '".data ++
      (pos ++ ("', employer '".data ++ (emp ++ "'".data))))))

/-- Warnings contributed by one `(position, employer)` leaf. -/
def valueWarnings (pos emp : Str) : CompValue → List Str
  | .single v => if v.lt ⟨0, 0⟩ then [negWarning pos emp] else []
  | .range low high =>
    (if low.lt ⟨0, 0⟩ || high.lt ⟨0, 0⟩ then [negWarning pos emp] else []) ++
      (if high.lt low then [lowHighWarning pos emp] else [])

/-- Modelled from the spec: `CompensationDataParser.validate_data` (a
static method per the tests) is in the absent `data_parser.py`.  Per the
spec's Validate step it "produces an ordered list of human-readable warning
strings (not exceptions) for: position with no employer data at all; any
value negative; any range where low > high", traversing the dataset in
order; the phrasing of each warning follows the tests' expected fragments
("no compensation data", "Negative compensation", "Low value" /
"exceeds high value"). -/
def validate_data (d : ValDataset) : List Str :=
  d.flatMap (fun pe =>
    if pe.2 = [] then [noDataWarning pe.1]
    else pe.2.flatMap (fun ev => valueWarnings pe.1 ev.1 ev.2))

/-- A concrete dataset exercising all three validation warnings. -/
def c3WitnessData : ValDataset :=
  [("Position A".data,
    [("Employer A".data, CompValue.range ⟨1000, 1⟩ ⟨800, 1⟩)]),
   ("Position B".data, [("Employer B".data, CompValue.single ⟨-10, 0⟩)]),
   ("Position C".data, []),
   ("Position D".data,
    [("Employer D".data, CompValue.range ⟨-5, 0⟩ ⟨10, 0⟩)])]

/-! ### Dictionary lemmas -/

theorem dictGet?_dictSet_self {α : Type} (d : Dict α) (k : Str) (v : α) :
    dictGet? (dictSet d k v) k = some v := by
  induction d with
  | nil => simp [dictSet, dictGet?]
  | cons hd tl ih =>
    by_cases h : hd.1 = k
    · simp [dictSet, dictGet?, h]
    · simp [dictSet, dictGet?, h, ih]

theorem dictGet?_dictSet_ne {α : Type} (d : Dict α) {k k' : Str} (v : α)
    (h : k ≠ k') : dictGet? (dictSet d k v) k' = dictGet? d k' := by
  induction d with
  | nil => simp [dictSet, dictGet?, h]
  | cons hd tl ih =>
    by_cases h1 : hd.1 = k
    · simp [dictSet, dictGet?, h1, h]
    · simp only [dictSet, h1, if_false]
      by_cases h2 : hd.1 = k'
      · simp [dictGet?, h2]
      · simp [dictGet?, h2, ih]

theorem isSome_dictGet? {α : Type} (d : Dict α) (k : Str) :
    (dictGet? d k).isSome = true ↔ k ∈ d.map Prod.fst := by
  induction d with
  | nil => simp [dictGet?]
  | cons hd tl ih =>
    show (if hd.1 = k then some hd.2 else dictGet? tl k).isSome = true ↔ _
    by_cases h : hd.1 = k
    · rw [if_pos h]
      simp only [Option.isSome_some, List.map_cons, List.mem_cons, true_iff]
      exact Or.inl h.symm
    · rw [if_neg h, ih]
      simp only [List.map_cons, List.mem_cons]
      constructor
      · exact Or.inr
      · rintro (rfl | hm)
        · exact absurd rfl h
        · exact hm

theorem map_fst_dictSet {α : Type} (d : Dict α) (k : Str) (v : α) :
    (dictSet d k v).map Prod.fst =
      if k ∈ d.map Prod.fst then d.map Prod.fst
      else d.map Prod.fst ++ [k] := by
  induction d with
  | nil => simp [dictSet]
  | cons hd tl ih =>
    show (if hd.1 = k then (k, v) :: tl else hd :: dictSet tl k v).map
      Prod.fst = _
    by_cases h : hd.1 = k
    · rw [if_pos h]
      have hk : k ∈ (hd :: tl).map Prod.fst := by
        simp only [List.map_cons, List.mem_cons]
        exact Or.inl h.symm
      rw [if_pos hk, List.map_cons, List.map_cons, h]
    · rw [if_neg h]
      by_cases h2 : k ∈ tl.map Prod.fst
      · have hk : k ∈ (hd :: tl).map Prod.fst := by
          simp only [List.map_cons, List.mem_cons]
          exact Or.inr h2
        rw [if_pos hk, List.map_cons, ih, if_pos h2, List.map_cons]
      · have hk : k ∉ (hd :: tl).map Prod.fst := by
          simp only [List.map_cons, List.mem_cons]
          rintro (rfl | hm)
          · exact h rfl
          · exact h2 hm
        rw [if_neg hk, List.map_cons, ih, if_neg h2, List.map_cons,
          List.cons_append]

theorem nodup_map_fst_dictSet {α : Type} {d : Dict α}
    (h : (d.map Prod.fst).Nodup) (k : Str) (v : α) :
    ((dictSet d k v).map Prod.fst).Nodup := by
  rw [map_fst_dictSet]
  split
  · exact h
  · next hk => simp [List.nodup_append, h, hk]

/-! ### Substring lemmas -/

theorem containsSub_cons {pat : Str} {rest : Str} (c : Char)
    (h : containsSub pat rest = true) : containsSub pat (c :: rest) = true := by
  simp [containsSub, h]

theorem containsSub_append_left {pat s : Str} (x : Str)
    (h : containsSub pat s = true) : containsSub pat (x ++ s) = true := by
  induction x with
  | nil => exact h
  | cons c r ih => exact containsSub_cons c ih

theorem isPrefixOf_append_self (pat t : Str) :
    pat.isPrefixOf (pat ++ t) = true := by
  induction pat with
  | nil => simp [List.isPrefixOf]
  | cons c r ih => simp [List.isPrefixOf, ih]

theorem containsSub_self_append (pat t : Str) :
    containsSub pat (pat ++ t) = true := by
  cases pat with
  | nil =>
    cases t with
    | nil => simp [containsSub, List.isEmpty]
    | cons c r => simp [containsSub, List.isPrefixOf]
  | cons c r =>
    simp only [List.cons_append, containsSub, Bool.or_eq_true]
    exact Or.inl (isPrefixOf_append_self (c :: r) t)

theorem containsSub_infix (a pat b : Str) :
    containsSub pat (a ++ (pat ++ b)) = true :=
  containsSub_append_left a (containsSub_self_append pat b)

/-! ### takeWhile / dropWhile / strip lemmas -/

theorem takeWhile_all {α : Type} {p : α → Bool} {l : List α}
    (h : ∀ c ∈ l, p c = true) : l.takeWhile p = l := by
  induction l with
  | nil => rfl
  | cons c r ih =>
    simp only [List.takeWhile_cons, h c (by simp)]
    simp [ih (fun c hc => h c (by simp [hc]))]

theorem dropWhile_all {α : Type} {p : α → Bool} {l : List α}
    (h : ∀ c ∈ l, p c = true) : l.dropWhile p = [] := by
  induction l with
  | nil => rfl
  | cons c r ih =>
    simp only [List.dropWhile_cons, h c (by simp)]
    simp [ih (fun c hc => h c (by simp [hc]))]

theorem dropWhile_none {α : Type} {p : α → Bool} {l : List α}
    (h : ∀ c ∈ l, p c = false) : l.dropWhile p = l := by
  cases l with
  | nil => rfl
  | cons c r => simp [List.dropWhile_cons, h c (by simp)]

theorem pyStrip_eq_self {t : Str} (h : ∀ c ∈ t, wsChar c = false) :
    pyStrip t = t := by
  unfold pyStrip
  rw [dropWhile_none h,
    dropWhile_none (fun c hc => h c (List.mem_reverse.mp hc)),
    List.reverse_reverse]

/-! ### Character classification lemmas -/

theorem wsChar_eq_false_of_isDigit {c : Char} (h : c.isDigit = true) :
    wsChar c = false := by
  rcases Bool.eq_false_or_eq_true (wsChar c) with hw | hw
  · exfalso
    unfold wsChar at hw
    simp only [Bool.or_eq_true, decide_eq_true_eq] at hw
    rcases hw with ((((h1 | h1) | h1) | h1) | h1) | h1 <;>
      subst h1 <;> exact absurd h (by decide)
  · exact hw

theorem wsChar_dot : wsChar '.' = false := by decide

theorem digit_toNat_le {c : Char} (h : c.isDigit = true) : c.toNat ≤ 57 := by
  simp [Char.isDigit] at h
  exact h.2

theorem digit_toNat_ge {c : Char} (h : c.isDigit = true) : 48 ≤ c.toNat := by
  simp [Char.isDigit] at h
  exact h.1

theorem pyLower_eq_self_of_lt {c : Char} (h : c.toNat < 65) :
    pyLower c = c := by
  unfold pyLower
  rw [if_neg]
  rintro ⟨h1, -⟩
  rw [Char.le_def] at h1
  have : (65 : Nat) ≤ c.toNat := h1
  omega

theorem pyLower_digit_or_dot {c : Char} (h : c.isDigit = true ∨ c = '.') :
    pyLower c = c := by
  rcases h with h | h
  · exact pyLower_eq_self_of_lt (by have := digit_toNat_le h; omega)
  · subst h; decide

theorem ne_p_of_digit_or_dot {c : Char} (h : c.isDigit = true ∨ c = '.') :
    c ≠ 'p' := by
  rintro rfl
  rcases h with h | h
  · exact absurd h (by decide)
  · exact absurd h (by decide)

theorem takeWhile_append_not {α : Type} {p : α → Bool} {d : List α} {x : α}
    (hd : ∀ c ∈ d, p c = true) (hx : p x = false) (r : List α) :
    (d ++ x :: r).takeWhile p = d := by
  induction d with
  | nil => simp [List.takeWhile_cons, hx]
  | cons c d' ih =>
    simp only [List.cons_append, List.takeWhile_cons, hd c (by simp)]
    simp [ih (fun c hc => hd c (by simp [hc]))]

theorem dropWhile_append_not {α : Type} {p : α → Bool} {d : List α} {x : α}
    (hd : ∀ c ∈ d, p c = true) (hx : p x = false) (r : List α) :
    (d ++ x :: r).dropWhile p = x :: r := by
  induction d with
  | nil => simp [List.dropWhile_cons, hx]
  | cons c d' ih =>
    simp only [List.cons_append, List.dropWhile_cons, hd c (by simp)]
    simp [ih (fun c hc => hd c (by simp [hc]))]

theorem not_containsSub_per {t : Str}
    (h : ∀ c ∈ t, c.isDigit = true ∨ c = '.') :
    containsSub perStr (lowerStr t) = false := by
  induction t with
  | nil => decide
  | cons c r ih =>
    have hc := h c (by simp)
    have hrest := ih (fun c' hc' => h c' (by simp [hc']))
    simp only [lowerStr, List.map_cons, containsSub, Bool.or_eq_false_iff]
    refine ⟨?_, hrest⟩
    show perStr.isPrefixOf (pyLower c :: r.map pyLower) = false
    rw [pyLower_digit_or_dot hc]
    have : perStr = 'p' :: "er".data := by decide
    rw [this]
    simp only [List.isPrefixOf, Bool.and_eq_false_iff]
    left
    exact beq_eq_false_iff_ne.mpr (Ne.symm (ne_p_of_digit_or_dot hc))

/-! ### Plain-decimal parsing lemmas -/

theorem isPlainDecimal_decomp {t : Str} (h : isPlainDecimal t = true) :
    (∃ c d1, t = c :: d1 ∧ ∀ x ∈ c :: d1, x.isDigit = true) ∨
    (∃ c d1 r2, t = (c :: d1) ++ '.' :: r2 ∧
      (∀ x ∈ c :: d1, x.isDigit = true) ∧ ∀ x ∈ r2, x.isDigit = true) := by
  unfold isPlainDecimal at h
  simp only [Bool.and_eq_true, Bool.not_eq_true', Bool.or_eq_true,
    beq_iff_eq, List.all_eq_true] at h
  obtain ⟨h1, h2⟩ := h
  have hsplit := List.takeWhile_append_dropWhile Char.isDigit t
  have hdig : ∀ x ∈ t.takeWhile Char.isDigit, x.isDigit = true :=
    fun x hx => List.mem_takeWhile_imp hx
  rcases hA : t.takeWhile Char.isDigit with - | ⟨c, d1⟩
  · rw [hA] at h1
    exact absurd h1 (by simp)
  · rw [hA] at hsplit hdig
    rcases h2 with h2 | ⟨h2, h3⟩
    · left
      rcases hB : t.dropWhile Char.isDigit with - | ⟨b, B'⟩
      · rw [hB] at hsplit
        simp only [List.append_nil] at hsplit
        exact ⟨c, d1, hsplit.symm, hdig⟩
      · rw [hB] at h2
        exact absurd h2 (by simp)
    · right
      rcases hB : t.dropWhile Char.isDigit with - | ⟨b, B'⟩
      · rw [hB] at h2
        exact absurd h2 (by simp)
      · rw [hB] at h2 h3 hsplit
        simp only [List.head?_cons, Option.some.injEq] at h2
        subst h2
        simp only [List.tail_cons] at h3
        exact ⟨c, d1, B', hsplit.symm, hdig, h3⟩

theorem pyFloatCore_digits {c : Char} {d1 : Str}
    (h : ∀ x ∈ c :: d1, x.isDigit = true) :
    pyFloatCore (c :: d1) = some (digitsVal (c :: d1), 0) := by
  simp only [pyFloatCore]
  rw [takeWhile_all h, dropWhile_all h]
  rfl

theorem pyFloatCore_digits_dot {c : Char} {d1 r2 : Str}
    (h1 : ∀ x ∈ c :: d1, x.isDigit = true)
    (h2 : ∀ x ∈ r2, x.isDigit = true) :
    pyFloatCore ((c :: d1) ++ '.' :: r2) =
      some (digitsVal (c :: d1) * 10 ^ r2.length + digitsVal r2, r2.length) := by
  simp only [pyFloatCore]
  rw [takeWhile_append_not h1 (by decide) r2,
    dropWhile_append_not h1 (by decide) r2]
  split
  · next r2' heq =>
    obtain rfl : r2 = r2' := by injection heq
    rw [takeWhile_all h2, dropWhile_all h2]
    simp [expAdjust]
  · next hne => exact absurd rfl (hne r2)

theorem decOf_digits {c : Char} {d1 : Str}
    (h : ∀ x ∈ c :: d1, x.isDigit = true) :
    decOf (c :: d1) = ⟨(digitsVal (c :: d1) : Int), 0⟩ := by
  simp only [decOf]
  rw [takeWhile_all h, dropWhile_all h]

theorem decOf_digits_dot {c : Char} {d1 r2 : Str}
    (h1 : ∀ x ∈ c :: d1, x.isDigit = true) :
    decOf ((c :: d1) ++ '.' :: r2) =
      ⟨(digitsVal (c :: d1) * 10 ^ r2.length + digitsVal r2 : Nat),
        r2.length⟩ := by
  simp only [decOf]
  rw [takeWhile_append_not h1 (by decide) r2,
    dropWhile_append_not h1 (by decide) r2]
  split
  · next r2' heq =>
    obtain rfl : r2 = r2' := by injection heq
    push_cast
    rfl
  · next hne => exact absurd rfl (hne r2)

theorem isDigit_ne_plus {c : Char} (h : c.isDigit = true) : c ≠ '+' := by
  rintro rfl
  exact absurd h (by decide)

theorem isDigit_ne_minus {c : Char} (h : c.isDigit = true) : c ≠ '-' := by
  rintro rfl
  exact absurd h (by decide)

theorem isPlainDecimal_chars {t : Str} (h : isPlainDecimal t = true) :
    ∀ x ∈ t, x.isDigit = true ∨ x = '.' := by
  rcases isPlainDecimal_decomp h with
    ⟨c, d1, rfl, hall⟩ | ⟨c, d1, r2, rfl, h1, h2⟩
  · exact fun x hx => Or.inl (hall x hx)
  · intro x hx
    rcases List.mem_append.mp hx with hx | hx
    · exact Or.inl (h1 x hx)
    · rcases List.mem_cons.mp hx with rfl | hx
      · exact Or.inr rfl
      · exact Or.inl (h2 x hx)

theorem pyFloat_plain {t : Str} (h : isPlainDecimal t = true) :
    pyFloat t = some (decOf t) := by
  have hd := isPlainDecimal_decomp h
  have hws : ∀ x ∈ t, wsChar x = false := fun x hx =>
    (isPlainDecimal_chars h x hx).elim wsChar_eq_false_of_isDigit
      (fun e => e ▸ wsChar_dot)
  rcases hd with ⟨c, d1, rfl, hall⟩ | ⟨c, d1, r2, rfl, h1, h2⟩
  · have hc : c.isDigit = true := hall c (by simp)
    simp only [pyFloat]
    rw [pyStrip_eq_self hws]
    simp only [pyFloat.pyFloatSigned]
    rw [if_neg (isDigit_ne_plus hc), if_neg (isDigit_ne_minus hc)]
    rw [pyFloatCore_digits hall, decOf_digits hall]
    rfl
  · have hc : c.isDigit = true := h1 c (by simp)
    simp only [pyFloat]
    rw [pyStrip_eq_self hws, List.cons_append]
    simp only [pyFloat.pyFloatSigned]
    rw [if_neg (isDigit_ne_plus hc), if_neg (isDigit_ne_minus hc)]
    rw [← List.cons_append, pyFloatCore_digits_dot h1 h2,
      decOf_digits_dot h1]
    simp only [Option.map_some']

theorem isPlainDecimal_digits {c : Char} {d1 : Str}
    (h : ∀ x ∈ c :: d1, x.isDigit = true) :
    isPlainDecimal (c :: d1) = true := by
  unfold isPlainDecimal
  rw [takeWhile_all h, dropWhile_all h]
  simp

theorem isPlainDecimal_digits_dot {c : Char} {d1 r2 : Str}
    (h1 : ∀ x ∈ c :: d1, x.isDigit = true)
    (h2 : ∀ x ∈ r2, x.isDigit = true) :
    isPlainDecimal ((c :: d1) ++ '.' :: r2) = true := by
  unfold isPlainDecimal
  rw [takeWhile_append_not h1 (by decide) r2,
    dropWhile_append_not h1 (by decide) r2]
  simp [List.all_eq_true]
  exact h2

theorem findNum_plain {s tok : Str} (h : findNum s = some tok) :
    isPlainDecimal tok = true := by
  induction s with
  | nil => simp [findNum] at h
  | cons c r ih =>
    simp only [findNum] at h
    by_cases hc : c.isDigit = true
    · rw [if_pos hc] at h
      obtain rfl : numToken (c :: r) = tok := by injection h
      have hd1 : ∀ x ∈ c :: r.takeWhile Char.isDigit, x.isDigit = true := by
        intro x hx
        rcases List.mem_cons.mp hx with rfl | hx
        · exact hc
        · exact List.mem_takeWhile_imp hx
      simp only [numToken]
      rw [List.takeWhile_cons_of_pos hc, List.dropWhile_cons_of_pos hc]
      split
      · exact isPlainDecimal_digits_dot hd1
          (fun x hx => List.mem_takeWhile_imp hx)
      · exact isPlainDecimal_digits hd1
    · rw [if_neg hc] at h
      exact ih h

theorem decOf_num_nonneg (t : Str) : 0 ≤ (decOf t).num := by
  simp only [decOf]
  split
  · positivity
  · exact Int.natCast_nonneg _

/-! ### clean_salary_value lemmas -/

theorem clean_salary_blank {s : Str} (h : pyStrip s = []) :
    clean_salary_value s = none := by
  unfold clean_salary_value
  rw [if_pos h]

theorem clean_salary_plain {s : Str}
    (h : isPlainDecimal (cleanedOf s) = true) :
    clean_salary_value s = some (decOf (cleanedOf s)) := by
  have hblank : ¬ pyStrip s = [] := by
    intro hb
    have hc : cleanedOf s = [] := by simp [cleanedOf, hb, removeChar]
    rw [hc] at h
    exact absurd h (by decide)
  have hper := not_containsSub_per (isPlainDecimal_chars h)
  unfold clean_salary_value
  rw [if_neg hblank]
  simp only [hper, Bool.false_eq_true, if_false]
  exact pyFloat_plain h

theorem clean_salary_per_nonneg {s : Str} {d : Dec}
    (hper : containsSub perStr (lowerStr (cleanedOf s)) = true)
    (h : clean_salary_value s = some d) : 0 ≤ d.num := by
  by_cases hb : pyStrip s = []
  · rw [clean_salary_blank hb] at h
    cases h
  · unfold clean_salary_value at h
    rw [if_neg hb] at h
    simp only [hper, if_true] at h
    rcases hf : findNum (cleanedOf s) with - | tok
    · rw [hf] at h
      cases h
    · rw [hf] at h
      have h' : pyFloat tok = some d := h
      rw [pyFloat_plain (findNum_plain hf)] at h'
      obtain rfl : decOf tok = d := by injection h'
      exact decOf_num_nonneg tok

/-! ### Fold lemmas -/

theorem foldlM_inv {ρ β : Type} {step : β → ρ → Except Unit β}
    {rows : List ρ} {acc d : β} {P : β → Prop}
    (hstep : ∀ b r b', r ∈ rows → step b r = .ok b' → P b → P b')
    (h : rows.foldlM step acc = .ok d) (hacc : P acc) : P d := by
  induction rows generalizing acc with
  | nil =>
    have h' : (Except.ok acc : Except Unit β) = .ok d := h
    obtain rfl := Except.ok.inj h'
    exact hacc
  | cons r rs ih =>
    rw [List.foldlM_cons] at h
    rcases hs : step acc r with e | acc'
    · rw [hs] at h
      exact Except.noConfusion h
    · rw [hs] at h
      have h' : rs.foldlM step acc' = .ok d := h
      exact ih (fun b x b' hx => hstep b x b' (by simp [hx])) h'
        (hstep acc r acc' (by simp) hs hacc)

theorem stepRow_cases {ti : Dict Nat} {acc : Dataset} {row : Row}
    {d : Dataset} (h : stepRow ti acc row = .ok d) :
    d = acc ∨
      ∃ c0 rest m, row = c0 :: rest ∧ 2 ≤ row.length ∧ pyStrip c0 ≠ [] ∧
        pyStrip c0 ∉ inspectorTitles ∧ rowEntries ti row = .ok m ∧
        d = dictSet acc (pyStrip c0) m := by
  rcases row with - | ⟨c0, rest⟩
  · exact Or.inl (Except.ok.inj h).symm
  · replace h : (if ((c0 :: rest).length < 2 || pyStrip c0 = []) then
        (Except.ok acc : Except Unit Dataset)
      else if pyStrip c0 ∈ inspectorTitles then .ok acc
      else match rowEntries ti (c0 :: rest) with
        | .error e => .error e
        | .ok m => .ok (dictSet acc (pyStrip c0) m)) = .ok d := h
    by_cases h1 : ((c0 :: rest).length < 2 || pyStrip c0 = []) = true
    · rw [if_pos h1] at h
      exact Or.inl (Except.ok.inj h).symm
    · rw [if_neg h1] at h
      by_cases h2 : pyStrip c0 ∈ inspectorTitles
      · rw [if_pos h2] at h
        exact Or.inl (Except.ok.inj h).symm
      · rw [if_neg h2] at h
        split at h
        · exact Except.noConfusion h
        · next m hm =>
          simp only [Bool.or_eq_true, decide_eq_true_eq, not_or] at h1
          exact Or.inr ⟨c0, rest, m, rfl, Nat.le_of_not_lt h1.1,
            h1.2, h2, hm, (Except.ok.inj h).symm⟩

theorem rowStep_ok_cases {row : Row} {m : EmpMap} {p : Str × Nat}
    {m' : EmpMap} (h : rowStep row m p = .ok m') :
    ∃ hlt : p.2 < row.length,
      (∃ v, clean_salary_value (row.get ⟨p.2, hlt⟩) = some v ∧
        m' = dictSet m p.1 v) ∨
      (clean_salary_value (row.get ⟨p.2, hlt⟩) = none ∧ m' = m) := by
  unfold rowStep at h
  split at h
  · exact Except.noConfusion h
  · next cell heq =>
    unfold pyIndex at heq
    split at heq
    · next hlt =>
      obtain rfl : row.get ⟨p.2, hlt⟩ = cell := Except.ok.inj heq
      refine ⟨hlt, ?_⟩
      rcases hc : clean_salary_value (row.get ⟨p.2, hlt⟩) with - | v
      · rw [hc] at h
        have h3 : (Except.ok m : Except Unit EmpMap) = .ok m' := h
        exact Or.inr ⟨rfl, (Except.ok.inj h3).symm⟩
      · rw [hc] at h
        have h3 : (Except.ok (dictSet m p.1 v) : Except Unit EmpMap) =
          .ok m' := h
        exact Or.inl ⟨v, rfl, (Except.ok.inj h3).symm⟩
    · exact Except.noConfusion heq

theorem rowStep_fold_not_mem {row : Row} {ti : Dict Nat} {acc m : EmpMap}
    {e : Str} (h : ti.foldlM (rowStep row) acc = .ok m)
    (he : e ∉ ti.map Prod.fst) : dictGet? m e = dictGet? acc e := by
  induction ti generalizing acc with
  | nil =>
    have h' : (Except.ok acc : Except Unit EmpMap) = .ok m := h
    obtain rfl := Except.ok.inj h'
    rfl
  | cons p ti' ih =>
    simp only [List.map_cons, List.mem_cons, not_or] at he
    rw [List.foldlM_cons] at h
    rcases hs : rowStep row acc p with er | acc'
    · rw [hs] at h
      exact Except.noConfusion h
    · rw [hs] at h
      have h' : ti'.foldlM (rowStep row) acc' = .ok m := h
      rw [ih h' he.2]
      obtain ⟨hlt, hcase⟩ := rowStep_ok_cases hs
      rcases hcase with ⟨v, hv, rfl⟩ | ⟨hv, rfl⟩
      · exact dictGet?_dictSet_ne acc v (fun hpe => he.1 hpe.symm)
      · rfl

theorem rowStep_fold_get {row : Row} {ti : Dict Nat} {acc m : EmpMap}
    {e : Str} {i : Nat} (hnd : (ti.map Prod.fst).Nodup)
    (hacc : dictGet? acc e = none) (hti : dictGet? ti e = some i)
    (h : ti.foldlM (rowStep row) acc = .ok m) :
    ∃ hlt : i < row.length,
      dictGet? m e = clean_salary_value (row.get ⟨i, hlt⟩) := by
  induction ti generalizing acc with
  | nil => exact absurd hti (by simp [dictGet?])
  | cons p ti' ih =>
    rw [List.foldlM_cons] at h
    rcases hs : rowStep row acc p with er | acc'
    · rw [hs] at h
      exact Except.noConfusion h
    · rw [hs] at h
      have h' : ti'.foldlM (rowStep row) acc' = .ok m := h
      obtain ⟨hlt, hcase⟩ := rowStep_ok_cases hs
      have hget : dictGet? (p :: ti') e =
          if p.1 = e then some p.2 else dictGet? ti' e := rfl
      rw [hget] at hti
      simp only [List.map_cons, List.nodup_cons] at hnd
      by_cases hpe : p.1 = e
      · rw [if_pos hpe] at hti
        obtain rfl : p.2 = i := Option.some.inj hti
        have hnotin : e ∉ ti'.map Prod.fst := hpe ▸ hnd.1
        refine ⟨hlt, ?_⟩
        rw [rowStep_fold_not_mem h' hnotin]
        rcases hcase with ⟨v, hv, rfl⟩ | ⟨hv, rfl⟩
        · rw [hv, ← hpe, dictGet?_dictSet_self]
        · rw [hv, hacc]
      · rw [if_neg hpe] at hti
        have hacc' : dictGet? acc' e = none := by
          rcases hcase with ⟨v, hv, rfl⟩ | ⟨hv, rfl⟩
          · rw [dictGet?_dictSet_ne acc v hpe]
            exact hacc
          · exact hacc
        exact ih hnd.2 hacc' hti h'

theorem rowStep_fold_keys {row : Row} {ti : Dict Nat} {acc m : EmpMap}
    {e : Str} (h : ti.foldlM (rowStep row) acc = .ok m)
    (he : (dictGet? m e).isSome = true) :
    (dictGet? acc e).isSome = true ∨ e ∈ ti.map Prod.fst := by
  by_cases hm : e ∈ ti.map Prod.fst
  · exact Or.inr hm
  · rw [rowStep_fold_not_mem h hm] at he
    exact Or.inl he

theorem nodup_fold_dictSet (l : List (Nat × Str)) (acc : Dict Nat)
    (h : (acc.map Prod.fst).Nodup) :
    (((l.foldl (fun d p => dictSet d (pyStrip p.2) (p.1 + 1)) acc)).map
      Prod.fst).Nodup := by
  induction l generalizing acc with
  | nil => exact h
  | cons p l' ih => exact ih _ (nodup_map_fst_dictSet h _ _)

theorem nodup_townIndices (headers : Row) :
    ((townIndices headers).map Prod.fst).Nodup := by
  unfold townIndices
  exact nodup_fold_dictSet _ [] (by simp)

theorem keys_fold_dictSet (l : List (Nat × Str)) (acc : Dict Nat) :
    ∀ e ∈ (l.foldl (fun d p => dictSet d (pyStrip p.2) (p.1 + 1)) acc).map
      Prod.fst, e ∈ acc.map Prod.fst ∨ e ∈ l.map (fun p => pyStrip p.2) := by
  induction l generalizing acc with
  | nil => exact fun e he => Or.inl he
  | cons p l' ih =>
    intro e he
    rcases ih _ e he with h | h
    · rw [map_fst_dictSet] at h
      by_cases hk : pyStrip p.2 ∈ acc.map Prod.fst
      · rw [if_pos hk] at h
        exact Or.inl h
      · rw [if_neg hk] at h
        rcases List.mem_append.mp h with h | h
        · exact Or.inl h
        · simp only [List.mem_singleton] at h
          exact Or.inr (by simp [h])
    · exact Or.inr (by simp [h])

theorem townIndices_keys_sub (headers : Row) :
    ∀ e ∈ (townIndices headers).map Prod.fst,
      e ∈ (employerHeaders headers).map pyStrip := by
  intro e he
  rcases keys_fold_dictSet (employerHeaders headers).enum [] e he with h | h
  · simp at h
  · rw [show (fun p : Nat × Str => pyStrip p.2) = pyStrip ∘ Prod.snd from
      rfl, ← List.map_map, List.enum_map_snd] at h
    exact h

theorem load_comparison_append {headers : Row} {rows : List Row} {r : Row}
    {d : Dataset}
    (h : load_comparison_data headers (rows ++ [r]) = .ok d) :
    ∃ d', load_comparison_data headers rows = .ok d' ∧
      stepRow (townIndices headers) d' r = .ok d := by
  unfold load_comparison_data at h ⊢
  rw [List.foldlM_append] at h
  rcases hs : rows.foldlM (stepRow (townIndices headers)) [] with e | d'
  · rw [hs] at h
    exact Except.noConfusion h
  · rw [hs] at h
    have h' : [r].foldlM (stepRow (townIndices headers)) d' = .ok d := h
    rw [List.foldlM_cons] at h'
    rcases hr : stepRow (townIndices headers) d' r with e | d2
    · rw [hr] at h'
      exact Except.noConfusion h'
    · rw [hr] at h'
      have h2 : (Except.ok d2 : Except Unit Dataset) = .ok d := h'
      obtain rfl := Except.ok.inj h2
      exact ⟨d', rfl, hr⟩

theorem stepRow_valid {ti : Dict Nat} {acc : Dataset} {c0 : Str} {rest : Row}
    {d : Dataset} (hlen : 2 ≤ (c0 :: rest).length) (hblank : pyStrip c0 ≠ [])
    (hinsp : pyStrip c0 ∉ inspectorTitles)
    (h : stepRow ti acc (c0 :: rest) = .ok d) :
    ∃ m, rowEntries ti (c0 :: rest) = .ok m ∧
      d = dictSet acc (pyStrip c0) m := by
  replace h : (if ((c0 :: rest).length < 2 || pyStrip c0 = []) then
      (Except.ok acc : Except Unit Dataset)
    else if pyStrip c0 ∈ inspectorTitles then .ok acc
    else match rowEntries ti (c0 :: rest) with
      | .error e => .error e
      | .ok m => .ok (dictSet acc (pyStrip c0) m)) = .ok d := h
  rw [if_neg (by
    simp only [Bool.or_eq_true, decide_eq_true_eq, not_or]
    exact ⟨Nat.not_lt.mpr hlen, hblank⟩), if_neg hinsp] at h
  split at h
  · exact Except.noConfusion h
  · next m hm => exact ⟨m, hm, (Except.ok.inj h).symm⟩

theorem dec_toRat_nonneg {d : Dec} (h : 0 ≤ d.num) : 0 ≤ d.toRat := by
  unfold Dec.toRat
  apply div_nonneg
  · exact_mod_cast h
  · positivity

theorem containsSub_self (pat : Str) : containsSub pat pat = true := by
  have := containsSub_self_append pat []
  rwa [List.append_nil] at this

/-! ### Claim theorems -/

/-- C1: loading fails with a `FileNotFoundError`-kind error for every path
that does not exist; for an existing path, it fails with an
`UnsupportedFormat`-kind error exactly when the extension is not one of
`.csv`, `.xls`, `.xlsx`, `.ods`, and every file with one of those four
extensions is accepted.  (Modelled from the spec: `data_parser.py` is not
in the repository; existence is checked before the extension, as the test
for a nonexistent `.csv` path expects `FileNotFoundError`.) -/
theorem c1_load_error_modes (fs : List Str) (p : Str) :
    (p ∉ fs → parserInit fs p = .error .fileNotFound) ∧
    (p ∈ fs → pySuffix p ∉ SUPPORTED_FORMATS →
      parserInit fs p = .error .unsupportedFormat) ∧
    (p ∈ fs → pySuffix p ∈ SUPPORTED_FORMATS → parserInit fs p = .ok ()) := by
  unfold parserInit
  refine ⟨fun h => ?_, fun h1 h2 => ?_, fun h1 h2 => ?_⟩
  · rw [if_neg h]
  · rw [if_pos h1, if_neg h2]
  · rw [if_pos h1, if_pos h2]

/-- Witness for C1 at concrete paths: a missing `.csv` path, an existing
`.txt` path and an existing `.csv` path. -/
theorem c1_load_error_modes_witness :
    parserInit ["input/data.csv".data, "input/notes.txt".data]
      ("missing.csv".data) = .error .fileNotFound ∧
    parserInit ["input/data.csv".data, "input/notes.txt".data]
      ("input/notes.txt".data) = .error .unsupportedFormat ∧
    parserInit ["input/data.csv".data, "input/notes.txt".data]
      ("input/data.csv".data) = .ok () :=
  ⟨(c1_load_error_modes _ _).1 (by decide),
   (c1_load_error_modes _ _).2.1 (by decide) (by decide),
   (c1_load_error_modes _ _).2.2 (by decide) (by decide)⟩

/-- C4 counterexample: the cell `-5` parses successfully and the negative
value is stored in the dataset as-is, so "every leaf value stored in the
resulting Dataset is a finite non-negative number" fails on the code. -/
theorem c4_counterexample :
    load_comparison_data ["POSITION TITLE".data, "Employer A".data]
      [["Custodian".data, "-5".data]] =
      .ok [("Custodian".data, [("Employer A".data, ⟨-5, 0⟩)])] ∧
    Dec.toRat ⟨-5, 0⟩ < 0 := by
  constructor
  · decide
  · norm_num [Dec.toRat]

/-- C4 (amended): a stored leaf value is whatever the cell parsed to, and
non-negativity holds only for the `per`-qualifier branch, whose regex token
is unsigned; direct float coercion can store negative values (see the
counterexample), and loading enforces no invariant — validation merely
warns. -/
theorem c4_per_branch_nonneg (s : Str) (d : Dec)
    (hper : containsSub perStr (lowerStr (cleanedOf s)) = true)
    (h : clean_salary_value s = some d) : 0 ≤ d.num ∧ 0 ≤ d.toRat := by
  have hn := clean_salary_per_nonneg hper h
  exact ⟨hn, dec_toRat_nonneg hn⟩

/-- Witness for C4 (amended) at the cell `$3.50 per inspection`. -/
theorem c4_per_branch_nonneg_witness :
    containsSub perStr (lowerStr (cleanedOf ("$3.50 per inspection".data)))
      = true ∧
    clean_salary_value ("$3.50 per inspection".data) = some ⟨350, 2⟩ ∧
    0 ≤ (⟨350, 2⟩ : Dec).num ∧ 0 ≤ (⟨350, 2⟩ : Dec).toRat :=
  ⟨by decide, by decide,
   c4_per_branch_nonneg ("$3.50 per inspection".data) ⟨350, 2⟩
     (by decide) (by decide)⟩

/-- C5 counterexample: a data row that passes the `len(row) < 2` guard but
is shorter than an employer column index makes `row[col_idx]` raise
`IndexError`, aborting the load — the missing cell is not "silently
omitted". -/
theorem c5_counterexample :
    load_comparison_data
      ["POSITION TITLE".data, "Employer A".data, "Employer B".data]
      [["Custodian".data, "100".data]] = .error () := by
  decide

/-- C5 (amended): for a row all of whose employer-column cells are present
(the per-row parse succeeds rather than raising `IndexError`), the row's
employer map has an entry for an employer if and only if parsing its cell
succeeded, and the entry holds exactly the parsed value — missing-parse
cells are omitted, never zero-filled. -/
theorem c5_entry_iff_parse (headers row : Row) (m : EmpMap) (e : Str)
    (i : Nat) (hok : rowEntries (townIndices headers) row = .ok m)
    (hti : dictGet? (townIndices headers) e = some i) :
    ∃ hlt : i < row.length,
      dictGet? m e = clean_salary_value (row.get ⟨i, hlt⟩) := by
  unfold rowEntries at hok
  have hacc : dictGet? ([] : EmpMap) e = none := rfl
  exact rowStep_fold_get (nodup_townIndices headers) hacc hti hok

/-- Witness for C5 (amended): employer A's parseable cell is stored,
employer B's empty cell is omitted. -/
theorem c5_entry_iff_parse_witness :
    rowEntries
      (townIndices ["POSITION TITLE".data, "Employer A".data,
        "Employer B".data])
      ["Custodian".data, "$1,200".data, " ".data] =
      .ok [("Employer A".data, ⟨1200, 0⟩)] ∧
    dictGet? (townIndices ["POSITION TITLE".data, "Employer A".data,
      "Employer B".data]) ("Employer A".data) = some 1 ∧
    dictGet? (townIndices ["POSITION TITLE".data, "Employer A".data,
      "Employer B".data]) ("Employer B".data) = some 2 ∧
    (∃ hlt : 1 < (["Custodian".data, "$1,200".data, " ".data] : Row).length,
      dictGet? [("Employer A".data, (⟨1200, 0⟩ : Dec))] ("Employer A".data) =
        clean_salary_value
          ((["Custodian".data, "$1,200".data, " ".data] : Row).get
            ⟨1, hlt⟩)) ∧
    (∃ hlt : 2 < (["Custodian".data, "$1,200".data, " ".data] : Row).length,
      dictGet? [("Employer A".data, (⟨1200, 0⟩ : Dec))] ("Employer B".data) =
        clean_salary_value
          ((["Custodian".data, "$1,200".data, " ".data] : Row).get
            ⟨2, hlt⟩)) := by
  refine ⟨by decide, by decide, by decide, ?_, ?_⟩
  · exact c5_entry_iff_parse
      ["POSITION TITLE".data, "Employer A".data, "Employer B".data]
      ["Custodian".data, "$1,200".data, " ".data]
      [("Employer A".data, ⟨1200, 0⟩)] ("Employer A".data) 1
      (by decide) (by decide)
  · exact c5_entry_iff_parse
      ["POSITION TITLE".data, "Employer A".data, "Employer B".data]
      ["Custodian".data, "$1,200".data, " ".data]
      [("Employer A".data, ⟨1200, 0⟩)] ("Employer B".data) 2
      (by decide) (by decide)

/-- C6: every cell whose text, once the dollar signs and thousands
separators are stripped, is a plain decimal numeral parses to exactly the
number written by those digits. -/
theorem c6_currency_parsing (s : Str)
    (h : isPlainDecimal (cleanedOf s) = true) :
    clean_salary_value s = some (decOf (cleanedOf s)) :=
  clean_salary_plain h

/-- Witness for C6: parsing `$1,234.50` yields the value 1234.50. -/
theorem c6_currency_parsing_witness :
    isPlainDecimal (cleanedOf ("$1,234.50".data)) = true ∧
    clean_salary_value ("$1,234.50".data) =
      some (decOf (cleanedOf ("$1,234.50".data))) ∧
    decOf (cleanedOf ("$1,234.50".data)) = ⟨123450, 2⟩ ∧
    Dec.toRat ⟨123450, 2⟩ = 1234.50 := by
  refine ⟨by decide, c6_currency_parsing _ (by decide), by decide, ?_⟩
  norm_num [Dec.toRat]

/-- C7: a blank or whitespace-only cell parses to "no value" (`None`), and
parsing is total — its only outcomes are `none` or a parsed value, never an
exception (the sole `ValueError` site is wrapped in `try/except`). -/
theorem c7_blank_and_total :
    (∀ s : Str, pyStrip s = [] → clean_salary_value s = none) ∧
    (∀ s : Str, clean_salary_value s = none ∨
      ∃ d, clean_salary_value s = some d) := by
  constructor
  · exact fun s h => clean_salary_blank h
  · intro s
    rcases h : clean_salary_value s with - | d
    · exact Or.inl rfl
    · exact Or.inr ⟨d, rfl⟩

/-- Witness for C7 at the whitespace-only cell `"   "`. -/
theorem c7_blank_and_total_witness :
    pyStrip ("   ".data) = [] ∧ clean_salary_value ("   ".data) = none :=
  ⟨by decide, c7_blank_and_total.1 ("   ".data) (by decide)⟩

/-- C8: a file holding only a header row loads to an empty dataset without
raising, in both `load_comparison_data` (any header row, no data rows) and
`load_dartmouth_data`. -/
theorem c8_header_only (headers : Row) :
    load_comparison_data headers [] = .ok [] ∧
    load_dartmouth_data [] = [] :=
  ⟨rfl, rfl⟩

/-- C10: when rows share a position title, the dataset entry for that title
is rebuilt from the last such row alone: whatever earlier rows contributed,
the final binding equals exactly the last row's parsed employer map. -/
theorem c10_last_row_wins (headers : Row) (rows : List Row) (c0 : Str)
    (rest : Row) (d : Dataset) (hlen : 2 ≤ (c0 :: rest).length)
    (hblank : pyStrip c0 ≠ []) (hinsp : pyStrip c0 ∉ inspectorTitles)
    (h : load_comparison_data headers (rows ++ [c0 :: rest]) = .ok d) :
    ∃ m, rowEntries (townIndices headers) (c0 :: rest) = .ok m ∧
      dictGet? d (pyStrip c0) = some m := by
  obtain ⟨d', -, hstep⟩ := load_comparison_append h
  obtain ⟨m, hm, rfl⟩ := stepRow_valid hlen hblank hinsp hstep
  exact ⟨m, hm, dictGet?_dictSet_self _ _ _⟩

/-- Witness for C10: two rows titled `Custodian`; the entry reflects only
the second row's value 200, the first row's 100 is discarded. -/
theorem c10_last_row_wins_witness :
    load_comparison_data ["POSITION TITLE".data, "Employer A".data]
      ([["Custodian".data, "100".data]] ++
        [["Custodian".data, "200".data]]) =
      .ok [("Custodian".data, [("Employer A".data, ⟨200, 0⟩)])] ∧
    (∃ m, rowEntries
        (townIndices ["POSITION TITLE".data, "Employer A".data])
        ["Custodian".data, "200".data] = .ok m ∧
      dictGet? [("Custodian".data, [("Employer A".data, (⟨200, 0⟩ : Dec))])]
        (pyStrip ("Custodian".data)) = some m) := by
  refine ⟨by decide, ?_⟩
  exact c10_last_row_wins ["POSITION TITLE".data, "Employer A".data]
    [["Custodian".data, "100".data]] ("Custodian".data) ["200".data]
    [("Custodian".data, [("Employer A".data, ⟨200, 0⟩)])]
    (by decide) (by decide) (by decide) (by decide)

/-- C3: validation turns data-quality issues into an ordered list of
warning strings and never raises (the model is a total function into
`List Str`): every inverted range yields a warning containing `Low value`
and `exceeds high value`, every negative value (single or range bound)
yields a warning containing `Negative compensation`, and every position
with an empty employer mapping yields a warning containing
`no compensation data`.  (Modelled from the spec: `validate_data` lives in
the absent `data_parser.py`; warning phrasing follows the tests.) -/
theorem c3_validate_warnings (d : ValDataset) :
    (∀ pos emps, (pos, emps) ∈ d → ∀ e l h,
      (e, CompValue.range l h) ∈ emps → Dec.lt h l = true →
      lowHighWarning pos e ∈ validate_data d ∧
      containsSub lowValuePhrase (lowHighWarning pos e) = true ∧
      containsSub exceedsPhrase (lowHighWarning pos e) = true) ∧
    (∀ pos emps, (pos, emps) ∈ d → ∀ e v,
      (e, CompValue.single v) ∈ emps → Dec.lt v ⟨0, 0⟩ = true →
      negWarning pos e ∈ validate_data d ∧
      containsSub negPhrase (negWarning pos e) = true) ∧
    (∀ pos emps, (pos, emps) ∈ d → ∀ e l h,
      (e, CompValue.range l h) ∈ emps →
      (Dec.lt l ⟨0, 0⟩ || Dec.lt h ⟨0, 0⟩) = true →
      negWarning pos e ∈ validate_data d) ∧
    (∀ pos, (pos, []) ∈ d →
      noDataWarning pos ∈ validate_data d ∧
      containsSub noDataPhrase (noDataWarning pos) = true) := by
  refine ⟨?_, ?_, ?_, ?_⟩
  · intro pos emps hmem e l h he hlt
    refine ⟨?_, containsSub_self_append _ _,
      containsSub_append_left _ (containsSub_append_left _
        (containsSub_self_append _ _))⟩
    refine List.mem_flatMap.mpr ⟨(pos, emps), hmem, ?_⟩
    show lowHighWarning pos e ∈
      if emps = [] then [noDataWarning pos]
      else emps.flatMap fun ev => valueWarnings pos ev.1 ev.2
    rw [if_neg (List.ne_nil_of_mem he)]
    refine List.mem_flatMap.mpr ⟨(e, CompValue.range l h), he, ?_⟩
    show lowHighWarning pos e ∈
      (if (Dec.lt l ⟨0, 0⟩ || Dec.lt h ⟨0, 0⟩) = true
        then [negWarning pos e] else []) ++
      (if Dec.lt h l = true then [lowHighWarning pos e] else [])
    refine List.mem_append.mpr (Or.inr ?_)
    rw [if_pos hlt]
    exact List.mem_singleton.mpr rfl
  · intro pos emps hmem e v he hlt
    refine ⟨?_, containsSub_self_append _ _⟩
    refine List.mem_flatMap.mpr ⟨(pos, emps), hmem, ?_⟩
    show negWarning pos e ∈
      if emps = [] then [noDataWarning pos]
      else emps.flatMap fun ev => valueWarnings pos ev.1 ev.2
    rw [if_neg (List.ne_nil_of_mem he)]
    refine List.mem_flatMap.mpr ⟨(e, CompValue.single v), he, ?_⟩
    show negWarning pos e ∈
      if Dec.lt v ⟨0, 0⟩ = true then [negWarning pos e] else []
    rw [if_pos hlt]
    exact List.mem_singleton.mpr rfl
  · intro pos emps hmem e l h he hneg
    refine List.mem_flatMap.mpr ⟨(pos, emps), hmem, ?_⟩
    show negWarning pos e ∈
      if emps = [] then [noDataWarning pos]
      else emps.flatMap fun ev => valueWarnings pos ev.1 ev.2
    rw [if_neg (List.ne_nil_of_mem he)]
    refine List.mem_flatMap.mpr ⟨(e, CompValue.range l h), he, ?_⟩
    show negWarning pos e ∈
      (if (Dec.lt l ⟨0, 0⟩ || Dec.lt h ⟨0, 0⟩) = true
        then [negWarning pos e] else []) ++
      (if Dec.lt h l = true then [lowHighWarning pos e] else [])
    refine List.mem_append.mpr (Or.inl ?_)
    rw [if_pos hneg]
    exact List.mem_singleton.mpr rfl
  · intro pos hmem
    refine ⟨?_, containsSub_append_left _ (containsSub_append_left _
      (containsSub_append_left _ (containsSub_self_append _ _)))⟩
    refine List.mem_flatMap.mpr ⟨(pos, []), hmem, ?_⟩
    show noDataWarning pos ∈
      if ([] : Dict CompValue) = [] then [noDataWarning pos]
      else List.flatMap _ _
    rw [if_pos rfl]
    exact List.mem_singleton.mpr rfl

/-- Witness for C3 at a concrete dataset with an inverted range, a negative
single value, a negative range bound and an empty position. -/
theorem c3_validate_warnings_witness :
    (("Position A".data, [("Employer A".data,
        CompValue.range ⟨1000, 1⟩ ⟨800, 1⟩)]) ∈ c3WitnessData ∧
      Dec.lt ⟨800, 1⟩ ⟨1000, 1⟩ = true ∧
      lowHighWarning ("Position A".data) ("Employer A".data) ∈
        validate_data c3WitnessData ∧
      containsSub lowValuePhrase
        (lowHighWarning ("Position A".data) ("Employer A".data)) = true ∧
      containsSub exceedsPhrase
        (lowHighWarning ("Position A".data) ("Employer A".data)) = true) ∧
    (negWarning ("Position B".data) ("Employer B".data) ∈
        validate_data c3WitnessData ∧
      containsSub negPhrase
        (negWarning ("Position B".data) ("Employer B".data)) = true) ∧
    (negWarning ("Position D".data) ("Employer D".data) ∈
      validate_data c3WitnessData) ∧
    (noDataWarning ("Position C".data) ∈ validate_data c3WitnessData ∧
      containsSub noDataPhrase (noDataWarning ("Position C".data)) =
        true) := by
  refine ⟨⟨by decide, by decide, ?_⟩, ?_, ?_, ?_⟩
  · exact (c3_validate_warnings c3WitnessData).1 ("Position A".data)
      [("Employer A".data, CompValue.range ⟨1000, 1⟩ ⟨800, 1⟩)] (by decide)
      ("Employer A".data) ⟨1000, 1⟩ ⟨800, 1⟩ (by decide) (by decide)
  · exact (c3_validate_warnings c3WitnessData).2.1 ("Position B".data)
      [("Employer B".data, CompValue.single ⟨-10, 0⟩)] (by decide)
      ("Employer B".data) ⟨-10, 0⟩ (by decide) (by decide)
  · exact (c3_validate_warnings c3WitnessData).2.2.1 ("Position D".data)
      [("Employer D".data, CompValue.range ⟨-5, 0⟩ ⟨10, 0⟩)] (by decide)
      ("Employer D".data) ⟨-5, 0⟩ ⟨10, 0⟩ (by decide) (by decide)
  · exact (c3_validate_warnings c3WitnessData).2.2.2 ("Position C".data)
      (by decide)

/-- C9: the three hardcoded inspector titles are silently excluded — after
any successful load the dataset has no binding for them, and
`filter_data_for_visualization` never returns a record with one of them. -/
theorem c9_inspectors_excluded :
    (∀ headers rows d, load_comparison_data headers rows = .ok d →
      ∀ t ∈ inspectorTitles, dictGet? d t = none) ∧
    (∀ (data : List (Str × Dec)) item,
      item ∈ filter_data_for_visualization data →
      item.1 ∉ inspectorTitles) := by
  constructor
  · intro headers rows d h t ht
    unfold load_comparison_data at h
    refine foldlM_inv (P := fun d' : Dataset =>
      ∀ t' ∈ inspectorTitles, dictGet? d' t' = none) ?_ h ?_ t ht
    · intro b r b' _ hs hP t' ht'
      rcases stepRow_cases hs with rfl |
        ⟨c0, rest, m0, -, -, -, hninsp, -, rfl⟩
      · exact hP t' ht'
      · rw [dictGet?_dictSet_ne _ _
          (fun he => hninsp (by rw [he]; exact ht'))]
        exact hP t' ht'
    · intro t' _
      rfl
  · intro data item hmem
    simp only [filter_data_for_visualization] at hmem
    rw [List.mem_mergeSort] at hmem
    have hfil : item ∈ data.filter (fun it => it.1 ∉ inspectorTitles) := by
      split at hmem
      · exact List.mem_mergeSort.mp (List.mem_of_mem_drop hmem)
      · exact List.mem_mergeSort.mp hmem
    have := (List.mem_filter.mp hfil).2
    simpa using this

/-- Witness for C9: an inspector-titled row is skipped by the loader, and a
non-inspector record survives the visualization filter. -/
theorem c9_inspectors_excluded_witness :
    load_comparison_data ["POSITION TITLE".data, "Employer A".data]
      [["Alternate Building Inspector".data, "50".data]] = .ok [] ∧
    dictGet? ([] : Dataset) ("Alternate Building Inspector".data) = none ∧
    (("Custodian".data, (⟨5, 0⟩ : Dec)) ∈
      filter_data_for_visualization [("Custodian".data, ⟨5, 0⟩)]) ∧
    ("Custodian".data ∉ inspectorTitles) := by
  have hmem : ("Custodian".data, (⟨5, 0⟩ : Dec)) ∈
      filter_data_for_visualization [("Custodian".data, ⟨5, 0⟩)] := by
    simp only [filter_data_for_visualization]
    have h1 : ([("Custodian".data, (⟨5, 0⟩ : Dec))].filter
        (fun it => it.1 ∉ inspectorTitles)) =
        [("Custodian".data, ⟨5, 0⟩)] := by decide
    rw [h1, List.length_mergeSort]
    rw [if_neg (by decide)]
    rw [List.mem_mergeSort, List.mem_mergeSort]
    simp
  refine ⟨by decide, ?_, hmem, ?_⟩
  · exact c9_inspectors_excluded.1
      ["POSITION TITLE".data, "Employer A".data]
      [["Alternate Building Inspector".data, "50".data]] [] (by decide)
      ("Alternate Building Inspector".data) (by decide)
  · exact c9_inspectors_excluded.2 [("Custodian".data, ⟨5, 0⟩)]
      ("Custodian".data, ⟨5, 0⟩) hmem

/-! ### Lemmas for the column-selection claim -/

theorem snd_mem_of_mem_enum {α : Type} {l : List α} {p : Nat × α}
    (h : p ∈ l.enum) : p.2 ∈ l := by
  obtain ⟨i, x⟩ := p
  have h2 := List.mem_enumFrom h
  simp only at h2
  rw [h2.2.2]
  exact List.getElem_mem _

theorem mem_keys_dictSet {α : Type} (d : Dict α) (k : Str) (v : α)
    (e : Str) :
    e ∈ (dictSet d k v).map Prod.fst ↔ e ∈ d.map Prod.fst ∨ e = k := by
  rw [map_fst_dictSet]
  split
  · next hk =>
    constructor
    · exact Or.inl
    · rintro (h | rfl)
      · exact h
      · exact hk
  · next hk => rw [List.mem_append, List.mem_singleton]

theorem keys_init_fold (l : List Str) (acc : Dict (List (Str × Dec)))
    (e : Str) :
    (e ∈ ((l.foldl
        (fun d e' => dictSet d (pyStrip e') ([] : List (Str × Dec)))
        acc).map Prod.fst)) ↔
      e ∈ acc.map Prod.fst ∨ e ∈ l.map pyStrip := by
  induction l generalizing acc with
  | nil =>
    rw [List.foldl_nil]
    simp only [List.map_nil, List.not_mem_nil, or_false]
  | cons x l' ih =>
    rw [List.foldl_cons, ih, mem_keys_dictSet]
    simp only [List.map_cons, List.mem_cons]
    tauto

theorem allEmpColStep_cases {row : Row} {position : Str}
    {d : Dict (List (Str × Dec))} {p : Nat × Str}
    {d' : Dict (List (Str × Dec))}
    (h : allEmpColStep row position d p = .ok d') :
    d' = d ∨ ∃ x, d' = dictSet d (pyStrip p.2) x := by
  unfold allEmpColStep at h
  split at h
  · exact Except.noConfusion h
  · next cell heq =>
    rcases hc : clean_salary_value cell with - | v
    · rw [hc] at h
      have h3 : (Except.ok d : Except Unit (Dict (List (Str × Dec)))) =
        .ok d' := h
      exact Or.inl (Except.ok.inj h3).symm
    · rw [hc] at h
      have h3 : (Except.ok (dictSet d (pyStrip p.2)
          ((dictGet? d (pyStrip p.2)).getD [] ++ [(position, v)])) :
          Except Unit (Dict (List (Str × Dec)))) = .ok d' := h
      exact Or.inr ⟨_, (Except.ok.inj h3).symm⟩

theorem allEmployerStep_cases {employers : List Str}
    {acc : Dict (List (Str × Dec))} {row : Row}
    {b' : Dict (List (Str × Dec))}
    (h : allEmployerStep employers acc row = .ok b') :
    b' = acc ∨ ∃ c0 rest, row = c0 :: rest ∧
      (employers.enum.foldlM (allEmpColStep row (pyStrip c0)) acc =
        .ok b') := by
  rcases row with - | ⟨c0, rest⟩
  · exact Or.inl (Except.ok.inj h).symm
  · replace h : (if ((c0 :: rest).length < 2 || pyStrip c0 = []) then
        (Except.ok acc : Except Unit (Dict (List (Str × Dec))))
      else employers.enum.foldlM
        (allEmpColStep (c0 :: rest) (pyStrip c0)) acc) = .ok b' := h
    by_cases h1 : ((c0 :: rest).length < 2 || pyStrip c0 = []) = true
    · rw [if_pos h1] at h
      exact Or.inl (Except.ok.inj h).symm
    · rw [if_neg h1] at h
      exact Or.inr ⟨c0, rest, rfl, h⟩

/-- C2 counterexample: column exclusion is not header-text matching — a
middle column whose header is the metadata label `ERI` is kept in the
dataset, while the trailing columns with ordinary employer headers are
dropped. -/
theorem c2_counterexample :
    ("ERI".data ∈ metadataLabels) ∧
    load_comparison_data
      ["POSITION TITLE".data, "ERI".data, "Empl X".data, "Empl Y".data,
        "Empl Z".data]
      [["Custodian".data, "100".data, "1".data, "2".data, "3".data]] =
      .ok [("Custodian".data, [("ERI".data, ⟨100, 0⟩)])] :=
  ⟨by decide, by decide⟩

/-- C2 (amended): column selection is positional, not label-based.
`load_comparison_data` takes every column except the first and (when there
are more than three columns) the trailing three as employer columns, so
every employer key in its dataset is the stripped header of such a column;
`load_all_employer_data` takes exactly columns 2..17, and its dict keys are
exactly the stripped headers of that slice.  (The dropped trailing columns
are the known metadata columns of the target spreadsheet — see the source
comment naming ERI, Comp Data Points, 60th Percentile — but header text is
never consulted.) -/
theorem c2_positional_columns :
    (∀ headers rows d pos m e,
      load_comparison_data headers rows = .ok d →
      dictGet? d pos = some m → (dictGet? m e).isSome = true →
      e ∈ (employerHeaders headers).map pyStrip) ∧
    (∀ headers rows m e,
      load_all_employer_data headers rows = .ok m →
      ((dictGet? m e).isSome = true ↔
        e ∈ (allEmployerSlice headers).map pyStrip)) := by
  constructor
  · intro headers rows d pos m e h hpos hsome
    unfold load_comparison_data at h
    refine foldlM_inv (P := fun d' : Dataset => ∀ pos' m',
      dictGet? d' pos' = some m' → ∀ e',
      (dictGet? m' e').isSome = true →
      e' ∈ (employerHeaders headers).map pyStrip) ?_ h ?_ pos m hpos e hsome
    · intro b r b' _ hs hP pos' m' hpm e' hse
      rcases stepRow_cases hs with rfl |
        ⟨c0, rest, m0, -, -, -, -, hrow, rfl⟩
      · exact hP pos' m' hpm e' hse
      · by_cases hpe : pyStrip c0 = pos'
        · rw [← hpe, dictGet?_dictSet_self] at hpm
          obtain rfl : m0 = m' := Option.some.inj hpm
          unfold rowEntries at hrow
          rcases rowStep_fold_keys hrow hse with hacc | hin
          · exact absurd hacc (by simp [dictGet?])
          · exact townIndices_keys_sub headers e' hin
        · rw [dictGet?_dictSet_ne _ _ hpe] at hpm
          exact hP pos' m' hpm e' hse
    · intro pos' m' hpm
      exact absurd hpm (by simp [dictGet?])
  · intro headers rows m e h
    unfold load_all_employer_data at h
    rw [isSome_dictGet?]
    refine foldlM_inv (P := fun b : Dict (List (Str × Dec)) => ∀ e',
      e' ∈ b.map Prod.fst ↔
        e' ∈ (allEmployerSlice headers).map pyStrip) ?_ h ?_ e
    · intro b r b' _ hs hP e'
      rcases allEmployerStep_cases hs with rfl | ⟨c0, rest, rfl, hfold⟩
      · exact hP e'
      · refine foldlM_inv (P := fun b2 : Dict (List (Str × Dec)) => ∀ e2,
          e2 ∈ b2.map Prod.fst ↔
            e2 ∈ (allEmployerSlice headers).map pyStrip) ?_ hfold hP e'
        intro b2 p b2' hpmem hcs hP2 e2
        rcases allEmpColStep_cases hcs with rfl | ⟨x, rfl⟩
        · exact hP2 e2
        · rw [mem_keys_dictSet, hP2 e2]
          constructor
          · rintro (h2 | rfl)
            · exact h2
            · exact List.mem_map_of_mem pyStrip (snd_mem_of_mem_enum hpmem)
          · exact Or.inl
    · intro e'
      rw [keys_init_fold]
      simp

/-- Witness for C2 (amended) at concrete tables for both loaders. -/
theorem c2_positional_columns_witness :
    (load_comparison_data
        ["POSITION TITLE".data, "ERI".data, "Empl X".data, "Empl Y".data,
          "Empl Z".data]
        [["Custodian".data, "100".data, "1".data, "2".data, "3".data]] =
      .ok [("Custodian".data, [("ERI".data, ⟨100, 0⟩)])]) ∧
    ("ERI".data ∈ (employerHeaders ["POSITION TITLE".data, "ERI".data,
      "Empl X".data, "Empl Y".data, "Empl Z".data]).map pyStrip) ∧
    (load_all_employer_data
        ["POSITION TITLE".data, "Baseline".data, "Empl A".data,
          "Empl B".data]
        [["Custodian".data, "1".data, "2".data, "3".data]] =
      .ok [("Empl A".data, [("Custodian".data, ⟨2, 0⟩)]),
           ("Empl B".data, [("Custodian".data, ⟨3, 0⟩)])]) ∧
    ((dictGet? [("Empl A".data, [("Custodian".data, (⟨2, 0⟩ : Dec))]),
        ("Empl B".data, [("Custodian".data, ⟨3, 0⟩)])]
        ("Empl A".data)).isSome = true ↔
      "Empl A".data ∈ (allEmployerSlice ["POSITION TITLE".data,
        "Baseline".data, "Empl A".data, "Empl B".data]).map pyStrip) := by
  refine ⟨by decide, ?_, by decide, ?_⟩
  · exact c2_positional_columns.1
      ["POSITION TITLE".data, "ERI".data, "Empl X".data, "Empl Y".data,
        "Empl Z".data]
      [["Custodian".data, "100".data, "1".data, "2".data, "3".data]]
      [("Custodian".data, [("ERI".data, ⟨100, 0⟩)])] ("Custodian".data)
      [("ERI".data, ⟨100, 0⟩)] ("ERI".data)
      (by decide) (by decide) (by decide)
  · exact c2_positional_columns.2
      ["POSITION TITLE".data, "Baseline".data, "Empl A".data,
        "Empl B".data]
      [["Custodian".data, "1".data, "2".data, "3".data]]
      [("Empl A".data, [("Custodian".data, ⟨2, 0⟩)]),
       ("Empl B".data, [("Custodian".data, ⟨3, 0⟩)])]
      ("Empl A".data) (by decide)

end Compgrapher
